import Mathlib

/-!
Verification of the kraken2-rust shard/build/resolve utilities.

Shallow embedding of the relevant functions of:
  src/kr2r/src/utils.rs         (expand_spaced_seed_mask, find_and_trans_files,
                                 find_and_trans_bin_files)
  src/kr2r/src/bin/hashshard.rs (run, mmap_read_write)
  src/kr2r/src/bin/build_k2_db.rs (run)
  src/kr2r/src/bin/resolve.rs   (read_rows_from_file, process_batch)

Machine integers are modelled as Nat with explicit reductions modulo 2^64
where u64 wrap-around matters.  Fallible operations return Except.
-/

namespace Kr2r

/-! ## Rows (resolve.rs)

The `Row` struct itself lives in the kr2r library crate (compact_hash.rs),
which is not part of the sources under review; only its users are.
Modelled from the spec: a HitRecord carries a sequence id, a
position-in-read and a resolved taxon value, each a u32, and derives a
total (lexicographic) order used by `rows.sort_unstable()` in
resolve.rs process_batch. -/
structure Row where
  value : Nat
  seq_id : Nat
  kmer_id : Nat
deriving DecidableEq, Repr

/-- The derived total order on `Row`: lexicographic on the fields. -/
def rowLe (a b : Row) : Prop :=
  a.value < b.value ∨
    (a.value = b.value ∧
      (a.seq_id < b.seq_id ∨ (a.seq_id = b.seq_id ∧ a.kmer_id ≤ b.kmer_id)))

instance : DecidableRel rowLe := fun a b => by
  unfold rowLe; infer_instance

instance : IsTotal Row rowLe where
  total a b := by unfold rowLe; omega

instance : IsTrans Row rowLe where
  trans a b c := by unfold rowLe; omega

instance : IsAntisymm Row rowLe where
  antisymm a b := by
    unfold rowLe
    intro h1 h2
    have hv : a.value = b.value := by omega
    have hs : a.seq_id = b.seq_id := by omega
    have hk : a.kmer_id = b.kmer_id := by omega
    cases a; cases b; simp_all

/-- `rows.sort_unstable()` in resolve.rs process_batch: sorting the
per-sequence rows by the total order on `Row`. -/
def sortRows (rows : List Row) : List Row :=
  List.insertionSort rowLe rows

/-- The per-sequence classification path of process_batch (resolve.rs):
the rows of one sequence are sorted, then handed to the hit-group
resolution (`process_hitgroup`, external to the sources under review,
kept abstract as `f`). -/
def resolveCall (f : List Row → Nat) (rows : List Row) : Nat :=
  f (sortRows rows)

/-! ## partition arithmetic (hashshard.rs run) -/

/-- hashshard.rs line 64:
`let partition = (hash_config.capacity + args.hash_capacity - 1) / args.hash_capacity;`
computed in usize: in a release build the addition wraps modulo 2^64 and a
subtraction from 0 wraps to 2^64 - 1 (a debug build panics on either),
so both are modelled with explicit reductions modulo 2^64. -/
def partition_of (capacity hash_capacity : Nat) : Nat :=
  (((capacity + hash_capacity) % 2 ^ 64 + 2 ^ 64 - 1) % 2 ^ 64) / hash_capacity

/-! ## expand_spaced_seed_mask (utils.rs lines 53-70)

u64 semantics: shift amounts are reduced modulo 64 (release build
behaviour of Rust shl/shr on u64; a debug build panics on a shift
amount of 64 or more), and shifted values are truncated modulo 2^64. -/

/-- Left shift of a u64 by a u64 amount, Rust release semantics. -/
def shlWrap (x s : Nat) : Nat := (x <<< (s % 64)) % 2 ^ 64

/-- One iteration of the loop body of expand_spaced_seed_mask:
`new_mask <<= bit_expansion_factor; if (spaced_seed_mask >> i) & 1 == 1 { new_mask |= bits; }` -/
def expandStep (m f bits : Nat) (acc : Nat) (i : Nat) : Nat :=
  let acc2 := shlWrap acc f
  if (m >>> i) &&& 1 = 1 then acc2 ||| bits else acc2

/-- utils.rs expand_spaced_seed_mask: the loop runs over
`(0..64 / bit_expansion_factor).rev()`. -/
def expand_spaced_seed_mask (spaced_seed_mask bit_expansion_factor : Nat) : Nat :=
  if bit_expansion_factor = 0 ∨ bit_expansion_factor > 64 then spaced_seed_mask
  else
    let bits := shlWrap 1 bit_expansion_factor - 1
    (List.range (64 / bit_expansion_factor)).reverse.foldl
      (expandStep spaced_seed_mask bit_expansion_factor bits) 0

/-- The claimed value of the expansion: bit `i` of the low `k` bits of
`m` becomes a run of `f` copies of that bit, i.e. contributes
`(2^f - 1) * 2^(f*i)` when set. -/
def expandSpec (m f : Nat) : Nat → Nat
  | 0 => 0
  | k + 1 =>
    expandSpec m f k + (if (m >>> k) &&& 1 = 1 then (2 ^ f - 1) * 2 ^ (f * k) else 0)

/-! ## hashshard.rs: shard splitting -/

/-- Little-endian byte serialization of a `usize`/`u32` value
(`to_le_bytes` in mmap_read_write), `k` bytes wide. -/
def toLeBytes : Nat → Nat → List Nat
  | 0, _ => []
  | k + 1, n => n % 256 :: toLeBytes k (n / 256)

/-- The byte range copied out of the source index file by
mmap_read_write: seek to `offset`, then `read_exact` of `length` bytes. -/
def extractRange (src : List Nat) (offset length : Nat) : List Nat :=
  (src.drop offset).take length

/-- mmap_read_write (hashshard.rs lines 12-38): the destination shard file
contents are the 8-byte little-endian shard index, the 8-byte
little-endian cell capacity, then the copied cells. -/
def shardFileBytes (src : List Nat) (i cap offset length : Nat) : List Nat :=
  toLeBytes 8 i ++ toLeBytes 8 cap ++ extractRange src offset length

/-- The per-shard parameters `(i, cap, offset, length)` computed by the
loop of hashshard.rs run (lines 86-95), with `b_size = 4` and
`file_len = capacity * 4 + 32`. -/
def shardParams (capacity hash_capacity : Nat) : List (Nat × Nat × Nat × Nat) :=
  let file_len := capacity * 4 + 32
  (List.range (partition_of capacity hash_capacity)).map (fun j =>
    let i := j + 1
    let offset := 32 + hash_capacity * j * 4
    let length0 := hash_capacity * 4
    let length := if offset + length0 > file_len then file_len - offset else length0
    (i, length / 4, offset, length))

/-- Observable writes of the shard splitter. -/
inductive ShardEvent where
  | writeConfig : ShardEvent
  | writeShard : Nat → Nat → Nat → Nat → ShardEvent
deriving DecidableEq, Repr

/-- hashshard.rs run (lines 60-114), restricted to its observable writes:
if the destination config file already exists the run panics
(`panic!("hash config is exists!!!")`) before writing anything; otherwise
it writes the config file and then one shard file per partition. -/
def hashshard_run (capacity hash_capacity : Nat) (configExists : Bool) :
    List ShardEvent × Except String Unit :=
  if configExists then ([], Except.error "hash config is exists!!!")
  else
    (ShardEvent.writeConfig ::
        (shardParams capacity hash_capacity).map
          (fun p => ShardEvent.writeShard p.1 p.2.1 p.2.2.1 p.2.2.2),
      Except.ok ())

/-! ## build_k2_db.rs: folding chunk files into the index -/

/-- Observable effects of build_k2_db.rs run. -/
inductive BuildEvent where
  | processChunk : Nat → Nat → BuildEvent
  | writeConfig : Nat → BuildEvent
  | deleteChunk : Nat → BuildEvent
deriving DecidableEq, Repr

/-- The first loop of build_k2_db.rs run (lines 34-49): fold each chunk
file with process_k2file (kept abstract as the oracle `processRes`,
the function lives in the kr2r library crate), accumulating the
occupied-cell count; the `?` operator propagates a failure. -/
def processChunksLoop (processRes : Nat → Except String Nat) :
    List Nat → Nat → List BuildEvent × Except String Nat
  | [], size => ([], Except.ok size)
  | i :: rest, size =>
    match processRes i with
    | Except.error e => ([], Except.error e)
    | Except.ok c =>
      let r := processChunksLoop processRes rest (size + c)
      (BuildEvent.processChunk i c :: r.1, r.2)

/-- The deletion loop of build_k2_db.rs run (lines 59-61):
`remove_file(chunk_file)?` — the `?` operator makes the run return the
first deletion error. -/
def deleteChunksLoop (deleteRes : Nat → Except String Unit) :
    List Nat → List BuildEvent × Except String Unit
  | [] => ([], Except.ok ())
  | i :: rest =>
    match deleteRes i with
    | Except.error e => ([], Except.error e)
    | Except.ok _ =>
      let r := deleteChunksLoop deleteRes rest
      (BuildEvent.deleteChunk i :: r.1, r.2)

/-- build_k2_db.rs run (lines 29-63): process every chunk file in index
order, then store the summed count in `hash_config.size` and write the
config file once, then delete the chunk files. -/
def build_k2_db_run (chunks : List Nat) (processRes : Nat → Except String Nat)
    (deleteRes : Nat → Except String Unit) : List BuildEvent × Except String Unit :=
  let p := processChunksLoop processRes chunks 0
  match p.2 with
  | Except.error e => (p.1, Except.error e)
  | Except.ok size =>
    let d := deleteChunksLoop deleteRes chunks
    (p.1 ++ BuildEvent.writeConfig size :: d.1, d.2)

/-! ## resolve.rs: reading the hit-record stream -/

/-- Little-endian value of a byte list. -/
def leNat (bytes : List Nat) : Nat := bytes.foldr (fun b acc => b + 256 * acc) 0

/-- Reinterpreting 12 bytes as a `Row` (the `transmute` in
read_rows_from_file). Modelled from the spec: the HitRecord layout is
three little-endian u32 fields. -/
def decodeRow (b : List Nat) : Row :=
  { value := leNat (b.take 4)
    seq_id := leNat ((b.drop 4).take 4)
    kmer_id := leNat ((b.drop 8).take 4) }

/-- The read loop of read_rows_from_file (resolve.rs lines 108-111):
`while reader.read_exact(&mut buffer).is_ok()` — it consumes one
12-byte record as long as 12 bytes remain, and stops at the first
incomplete record. -/
def readRowsLoop (bytes : List Nat) : List Row :=
  if _h : 12 ≤ bytes.length then
    decodeRow (bytes.take 12) :: readRowsLoop (bytes.drop 12)
  else []
termination_by bytes.length
decreasing_by simp; omega

/-- `map.entry(row.seq_id).or_default().push(row)`: append the row to its
sequence id group.  (The HashMap is modelled as an association list in
first-seen key order.) -/
def groupInsert (m : List (Nat × List Row)) (r : Row) : List (Nat × List Row) :=
  match m with
  | [] => [(r.seq_id, [r])]
  | (k, rs) :: rest =>
    if k = r.seq_id then (k, rs ++ [r]) :: rest else (k, rs) :: groupInsert rest r

/-- All rows of the stream grouped by sequence id. -/
def groupRows (rows : List Row) : List (Nat × List Row) := rows.foldl groupInsert []

/-- resolve.rs read_rows_from_file (lines 102-114): the loop never turns a
short trailing record into an error; the function returns `Ok` with the
groups of complete records. -/
def read_rows_from_file (bytes : List Nat) : Except String (List (Nat × List Row)) :=
  Except.ok (groupRows (readRowsLoop bytes))

/-- Inverse of `decodeRow`, used to state which inputs decode to given rows. -/
def encodeRow (r : Row) : List Nat :=
  toLeBytes 4 r.value ++ toLeBytes 4 r.seq_id ++ toLeBytes 4 r.kmer_id

/-- Serialization of a record stream. -/
def encodeRows (rs : List Row) : List Nat := (rs.map encodeRow).flatten

/-! ## utils.rs: find_and_trans_files / find_and_trans_bin_files -/

/-- One `BTreeMap` insertion into a key-sorted association list.
`init` builds the stored value for a fresh key; `push` combines an
existing stored value with the new one. -/
def btUpsert {B : Type} (init : String → B) (push : B → String → B)
    (k : Nat) (v : String) : List (Nat × B) → List (Nat × B)
  | [] => [(k, init v)]
  | (a, b) :: rest =>
    if k < a then (k, init v) :: (a, b) :: rest
    else if k = a then (a, push b v) :: rest
    else (a, b) :: btUpsert init push k v rest

/-- utils.rs find_and_trans_files: `map_entries.insert(num, path)` — a
duplicate index replaces the stored path. `extracted` is the list of
(index, path) pairs whose file names matched the regular expression. -/
def buildTransMap (extracted : List (Nat × String)) : List (Nat × String) :=
  extracted.foldl (fun m e => btUpsert (fun v => v) (fun _ v => v) e.1 e.2 m) []

/-- utils.rs find_and_trans_bin_files:
`map_entries.entry(num).or_insert_with(Vec::new).push(path)` — a
duplicate index appends the path to the stored vector. -/
def buildBinMap (extracted : List (Nat × String)) : List (Nat × List String) :=
  extracted.foldl (fun m e => btUpsert (fun v => [v]) (fun l v => l ++ [v]) e.1 e.2 m) []

/-- The contiguity check loop: `for (i, &key) in keys.iter().enumerate()`
with the test `i + 1 != key`. -/
def checkKeysFrom : Nat → List Nat → Bool
  | _, [] => true
  | i, k :: rest => (i + 1 == k) && checkKeysFrom (i + 1) rest

/-- The check performed when `check` is true: the collected keys are
sorted (`keys.sort_unstable()`) and each must equal its position plus 1. -/
def checkContig (keys : List Nat) : Bool :=
  checkKeysFrom 0 (List.insertionSort (· ≤ ·) keys)

/-- utils.rs find_and_trans_files (lines 241-295), with the directory
walk and regular-expression match abstracted to the extracted
(index, path) pairs. -/
def find_and_trans_files (extracted : List (Nat × String)) (check : Bool) :
    Except String (List (Nat × String)) :=
  let m := buildTransMap extracted
  if check && !(checkContig (m.map Prod.fst)) then
    Except.error "File numbers are not continuous starting from 1."
  else Except.ok m

/-- utils.rs find_and_trans_bin_files (lines 193-239), with the directory
walk and regular-expression match abstracted to the extracted
(index, path) pairs. -/
def find_and_trans_bin_files (extracted : List (Nat × String)) (check : Bool) :
    Except String (List (Nat × List String)) :=
  let m := buildBinMap extracted
  if check && !(checkContig (m.map Prod.fst)) then
    Except.error "File numbers are not continuous starting from 1."
  else Except.ok m

/-! ## resolve.rs: process_batch -/

/-- One value of the sample-id map of read_id_to_seq_map:
(sequence id, sequence length text, k-mer count 1, optional k-mer count 2). -/
structure SeqItem where
  seq_id : String
  seq_size : String
  kmer_count1 : Nat
  kmer_count2 : Option Nat

/-- The tuple returned by process_hitgroup (classification status, called
taxon, per-position trace, per-taxon counter deltas, classified-read
increment).  process_hitgroup itself lives in the kr2r library crate and
is kept abstract. -/
structure HitData where
  status : String
  call : String
  trace : String
  deltas : List (Nat × Nat)
  classified : Nat

/-- The observable outcome of process_batch on one batch: output lines,
per-taxon counters, the classified-read counter, and log messages. -/
structure BatchResult where
  outs : List String
  counts : Nat → Nat
  classified : Nat
  logs : List String

/-- Folding the counter deltas of one sequence into the shared counters
(`cur_taxon_counts.entry(*key).or_default().merge(value)`). -/
def addDeltas (c : Nat → Nat) (ds : List (Nat × Nat)) : Nat → Nat :=
  ds.foldl (fun c d => fun t => if t = d.1 then c t + d.2 else c t) c

/-- The output line
`format!("{}\t{}\t{}\t{}\t{}\n", hit_data.0, dna_id, hit_data.1, item.1, hit_data.2)`. -/
def outputLine (hd : HitData) (dnaId : String) (item : SeqItem) : String :=
  hd.status ++ "\t" ++ dnaId ++ "\t" ++ hd.call ++ "\t" ++ item.seq_size ++ "\t"
    ++ hd.trace ++ "\n"

/-- The log message emitted on a sequence-id lookup miss
(`eprintln!` in process_batch). -/
def logMsg (k : Nat) : String :=
  "cannot find " ++ toString k ++ " in sample_id map file"

/-- resolve.rs process_batch (lines 133-184), per-group body: a group
whose sequence id is present in the id map is sorted and classified and
contributes one output line, its counter deltas and its classified
increment; a group whose id is missing only logs a message.
`hitFn` abstracts process_hitgroup and `trimFn` abstracts
trim_pair_info (both external to the sources under review). -/
def processBatch (hitFn : List Row → SeqItem → HitData) (trimFn : String → String)
    (idMap : Nat → Option SeqItem) : List (Nat × List Row) → BatchResult
  | [] => ⟨[], fun _ => 0, 0, []⟩
  | (k, rows) :: rest =>
    let r := processBatch hitFn trimFn idMap rest
    match idMap k with
    | some item =>
      let hd := hitFn (sortRows rows) item
      ⟨outputLine hd (trimFn item.seq_id) item :: r.outs,
        addDeltas r.counts hd.deltas,
        hd.classified + r.classified, r.logs⟩
    | none => ⟨r.outs, r.counts, r.classified, logMsg k :: r.logs⟩

end Kr2r

namespace Kr2r

/-! ### helper lemmas -/

theorem lor_mul_two_pow_eq_add (n : Nat) :
    ∀ a b : Nat, b < 2 ^ n → (a * 2 ^ n) ||| b = a * 2 ^ n + b := by
  induction n with
  | zero =>
    intro a b hb
    interval_cases b
    simp
  | succ n ih =>
    intro a b hb
    have hq : b / 2 < 2 ^ n := by
      have h2 : 2 ^ (n + 1) = 2 * 2 ^ n := by ring
      omega
    have hsplit : b = 2 * (b / 2) + b % 2 := (Nat.div_add_mod b 2).symm
    have hpow : a * 2 ^ (n + 1) = 2 * (a * 2 ^ n) := by ring
    rcases Nat.mod_two_eq_zero_or_one b with hm | hm
    · have hb2 : b = Nat.bit false (b / 2) := by
        simp [Nat.bit_false]; omega
      have ha2 : a * 2 ^ (n + 1) = Nat.bit false (a * 2 ^ n) := by
        simp [Nat.bit_false]; omega
      rw [hb2, ha2, Nat.lor_bit, ih _ _ hq]
      simp [Nat.bit_false]
      omega
    · have hb2 : b = Nat.bit true (b / 2) := by
        simp [Nat.bit_true]; omega
      have ha2 : a * 2 ^ (n + 1) = Nat.bit false (a * 2 ^ n) := by
        simp [Nat.bit_false]; omega
      rw [hb2, ha2, Nat.lor_bit, ih _ _ hq]
      simp [Nat.bit_true, Nat.bit_false]
      omega

theorem expandLoop_inv (m f : Nat) (hf1 : 1 ≤ f) (hf2 : f ≤ 63) :
    ∀ k acc, f * k ≤ 64 → acc < 2 ^ (64 - f * k) →
      (List.range k).reverse.foldl (expandStep m f (2 ^ f - 1)) acc
        = acc * 2 ^ (f * k) + expandSpec m f k := by
  intro k
  induction k with
  | zero =>
    intro acc _ _
    simp [expandSpec]
  | succ k ih =>
    intro acc hk hacc
    have hmul : f * (k + 1) = f * k + f := by ring
    rw [hmul] at hk hacc
    have hk2 : f * k ≤ 64 := by omega
    have hpp : (0 : Nat) < 2 ^ f := Nat.two_pow_pos f
    have hsum : acc * 2 ^ f + 2 ^ f ≤ 2 ^ (64 - f * k) := by
      have h1 : (acc + 1) * 2 ^ f ≤ 2 ^ (64 - (f * k + f)) * 2 ^ f :=
        Nat.mul_le_mul_right _ (by omega)
      have h2 : 2 ^ (64 - (f * k + f)) * 2 ^ f = 2 ^ (64 - f * k) := by
        rw [← Nat.pow_add]
        congr 1
        omega
      have h3 : (acc + 1) * 2 ^ f = acc * 2 ^ f + 2 ^ f := by ring
      omega
    have hacc64 : acc * 2 ^ f < 2 ^ 64 := by
      have h3 : 2 ^ (64 - f * k) ≤ 2 ^ 64 := Nat.pow_le_pow_right (by norm_num) (by omega)
      omega
    have hshl : shlWrap acc f = acc * 2 ^ f := by
      unfold shlWrap
      rw [Nat.mod_eq_of_lt (show f < 64 by omega), Nat.shiftLeft_eq,
        Nat.mod_eq_of_lt hacc64]
    have hstep : expandStep m f (2 ^ f - 1) acc k
        = acc * 2 ^ f + (if (m >>> k) &&& 1 = 1 then 2 ^ f - 1 else 0) := by
      unfold expandStep
      rw [hshl]
      by_cases hbit : (m >>> k) &&& 1 = 1
      · rw [if_pos hbit, if_pos hbit]
        exact lor_mul_two_pow_eq_add f acc (2 ^ f - 1) (by omega)
      · rw [if_neg hbit, if_neg hbit]
        omega
    have hstep_lt : expandStep m f (2 ^ f - 1) acc k < 2 ^ (64 - f * k) := by
      rw [hstep]
      by_cases hbit : (m >>> k) &&& 1 = 1
      · rw [if_pos hbit]; omega
      · rw [if_neg hbit]; omega
    have hspec : expandSpec m f (k + 1)
        = expandSpec m f k
          + (if (m >>> k) &&& 1 = 1 then (2 ^ f - 1) * 2 ^ (f * k) else 0) := rfl
    rw [List.range_succ]
    simp only [List.reverse_append, List.reverse_cons, List.reverse_nil,
      List.nil_append, List.singleton_append, List.foldl_cons]
    rw [ih (expandStep m f (2 ^ f - 1) acc k) hk2 hstep_lt, hstep, hspec, hmul]
    by_cases hbit : (m >>> k) &&& 1 = 1
    · rw [if_pos hbit, if_pos hbit]
      generalize (2 ^ f - 1 : Nat) = B
      rw [Nat.pow_add]
      ring
    · rw [if_neg hbit, if_neg hbit, Nat.pow_add]
      ring

end Kr2r

namespace Kr2r

/-! ### Claim theorems -/

/-- C1: for a fixed multiset of hit records of one sequence (and fixed
confidence threshold and minimum hit groups, absorbed in the abstract
resolution function `f`), the taxon call of the per-sequence
classification path of process_batch is the same for every arrival order
of the records: the rows are sorted before resolution. -/
theorem resolveCall_perm_invariant (f : List Row → Nat) (r1 r2 : List Row)
    (h : r1.Perm r2) : resolveCall f r1 = resolveCall f r2 := by
  unfold resolveCall sortRows
  congr 1
  exact List.eq_of_perm_of_sorted
    ((List.perm_insertionSort rowLe r1).trans
      (h.trans (List.perm_insertionSort rowLe r2).symm))
    (List.sorted_insertionSort rowLe r1)
    (List.sorted_insertionSort rowLe r2)

theorem resolveCall_perm_invariant_witness :
    resolveCall (fun l => (l.map Row.value).sum) [⟨5, 1, 2⟩, ⟨3, 1, 1⟩]
      = resolveCall (fun l => (l.map Row.value).sum) [⟨3, 1, 1⟩, ⟨5, 1, 2⟩] :=
  resolveCall_perm_invariant _ _ _
    (List.Perm.swap (⟨3, 1, 1⟩ : Row) (⟨5, 1, 2⟩ : Row) [])

theorem nat_add_pred_div_eq_ceil (c h : Nat) (h1 : 0 < h) :
    (c + h - 1) / h = ⌈(c : ℚ) / (h : ℚ)⌉₊ := by
  have hcd : (c + h - 1) / h = c ⌈/⌉ h :=
    (Nat.ceilDiv_eq_add_pred_div c h).symm
  have hq : (0 : ℚ) < (h : ℚ) := by exact_mod_cast h1
  apply le_antisymm
  · rw [hcd, ceilDiv_le_iff_le_mul h1]
    have h3 : (c : ℚ) ≤ (h : ℚ) * (⌈(c : ℚ) / (h : ℚ)⌉₊ : ℚ) := by
      have h4 := Nat.le_ceil ((c : ℚ) / (h : ℚ))
      calc (c : ℚ)
          = (h : ℚ) * ((c : ℚ) / (h : ℚ)) := by field_simp
        _ ≤ _ := mul_le_mul_of_nonneg_left h4 (le_of_lt hq)
    exact_mod_cast h3
  · rw [hcd]
    apply Nat.ceil_le.mpr
    have h5 : c ≤ h * (c ⌈/⌉ h) := by
      have h7 := le_smul_ceilDiv h1 (b := c)
      simpa [smul_eq_mul] using h7
    have h6 : (c : ℚ) ≤ (h : ℚ) * ((c ⌈/⌉ h : Nat) : ℚ) := by
      exact_mod_cast h5
    rw [div_le_iff₀ hq]
    linarith

/-- C2 counterexample: capacity = 2^64 - 1 and hash_capacity = 2 satisfy
the claim's hypotheses 0 < hash_capacity ≤ capacity, but the usize
addition `capacity + hash_capacity` wraps, so the program derives 0
shards (a debug build panics) while the mathematical ceiling is 2^63. -/
theorem partition_of_overflow_cex :
    0 < 2 ∧ 2 ≤ 2 ^ 64 - 1 ∧
    partition_of (2 ^ 64 - 1) 2 = 0 ∧
    ⌈((2 ^ 64 - 1 : Nat) : ℚ) / ((2 : Nat) : ℚ)⌉₊ = 2 ^ 63 ∧
    partition_of (2 ^ 64 - 1) 2 ≠ ⌈((2 ^ 64 - 1 : Nat) : ℚ) / ((2 : Nat) : ℚ)⌉₊ := by
  have hceil : ⌈((2 ^ 64 - 1 : Nat) : ℚ) / ((2 : Nat) : ℚ)⌉₊ = 2 ^ 63 := by
    rw [← nat_add_pred_div_eq_ceil (2 ^ 64 - 1) 2 (by norm_num)]
    norm_num
  refine ⟨by norm_num, by norm_num, by decide, hceil, ?_⟩
  rw [hceil]
  decide

/-- C2 amended: for 0 < hash_capacity ≤ capacity, provided the usize
addition capacity + hash_capacity does not overflow
(capacity + hash_capacity ≤ 2^64), the shard count
`(capacity + hash_capacity - 1) / hash_capacity` computed by
hashshard.rs equals the mathematical ceiling of capacity / hash_capacity. -/
theorem partition_of_eq_ceil (capacity hash_capacity : Nat)
    (h1 : 0 < hash_capacity) (_h2 : hash_capacity ≤ capacity)
    (h3 : capacity + hash_capacity ≤ 2 ^ 64) :
    partition_of capacity hash_capacity
      = ⌈(capacity : ℚ) / (hash_capacity : ℚ)⌉₊ := by
  have hred : partition_of capacity hash_capacity
      = (capacity + hash_capacity - 1) / hash_capacity := by
    unfold partition_of
    have h4 : ((capacity + hash_capacity) % 2 ^ 64 + 2 ^ 64 - 1) % 2 ^ 64
        = capacity + hash_capacity - 1 := by omega
    rw [h4]
  rw [hred]
  exact nat_add_pred_div_eq_ceil capacity hash_capacity h1

theorem partition_of_eq_ceil_witness :
    partition_of 100 40 = ⌈(100 : ℚ) / (40 : ℚ)⌉₊ ∧ partition_of 100 40 = 3 :=
  ⟨partition_of_eq_ceil 100 40 (by norm_num) (by norm_num) (by norm_num), by decide⟩

/-- C10 counterexample: at `m = 1`, `f = 64` the code (u64 shift amounts
are reduced modulo 64) returns 0, while the claimed expansion — the low
64/64 = 1 bit of `m` replaced by a run of 64 copies — would be
`2^64 - 1`. -/
theorem expand_spaced_seed_mask_f64_cex :
    expand_spaced_seed_mask 1 64 = 0 ∧ expandSpec 1 64 (64 / 64) = 2 ^ 64 - 1 ∧
      expand_spaced_seed_mask 1 64 ≠ expandSpec 1 64 (64 / 64) := by
  refine ⟨by decide, by decide, by decide⟩

/-- C10 amended: expand_spaced_seed_mask returns the mask unchanged when
the factor is 0 or exceeds 64, and for factors 1..=63 it expands each of
the low 64/f bits of the mask into a run of f copies; at factor exactly
64 the shift-amount wrap-around makes the result 0 instead (see the
counterexample). -/
theorem expand_spaced_seed_mask_spec :
    (∀ m f, f = 0 ∨ 64 < f → expand_spaced_seed_mask m f = m) ∧
    (∀ m f, 1 ≤ f → f ≤ 63 →
      expand_spaced_seed_mask m f = expandSpec m f (64 / f)) := by
  constructor
  · intro m f h
    unfold expand_spaced_seed_mask
    rw [if_pos (by omega)]
  · intro m f hf1 hf2
    unfold expand_spaced_seed_mask
    rw [if_neg (by omega)]
    have hbits : shlWrap 1 f - 1 = 2 ^ f - 1 := by
      unfold shlWrap
      rw [Nat.mod_eq_of_lt (show f < 64 by omega), Nat.shiftLeft_eq, one_mul,
        Nat.mod_eq_of_lt (Nat.pow_lt_pow_right (by norm_num) (by omega))]
    have hk : f * (64 / f) ≤ 64 := by
      have := Nat.div_mul_le_self 64 f
      calc f * (64 / f) = 64 / f * f := by ring
        _ ≤ 64 := this
    have h0 : (0 : Nat) < 2 ^ (64 - f * (64 / f)) := Nat.two_pow_pos _
    have := expandLoop_inv m f hf1 hf2 (64 / f) 0 hk h0
    simpa [hbits] using this

theorem cover3 (l : List Nat) (a b c : Nat) (h : l.length = a + b + c) :
    l.take a ++ (l.drop a).take b ++ ((l.drop a).drop b).take c = l := by
  rw [List.append_assoc]
  conv_rhs => rw [← List.take_append_drop a l]
  congr 1
  conv_rhs => rw [← List.take_append_drop b (l.drop a)]
  congr 1
  apply List.take_of_length_le
  simp
  omega

/-- C3: splitting a monolithic index of capacity 100 with hash_capacity 40
produces exactly 3 shard files with cell capacities 40, 40, 20; each file
starts with the 8-byte little-endian shard index then the 8-byte
little-endian capacity, and the three copied cell ranges are contiguous,
disjoint and in order, starting right after the 32-byte preamble and
covering the rest of the source file. -/
theorem shardParams_100_40 :
    shardParams 100 40 = [(1, 40, 32, 160), (2, 40, 192, 160), (3, 20, 352, 80)] ∧
    toLeBytes 8 1 = [1, 0, 0, 0, 0, 0, 0, 0] ∧
    toLeBytes 8 40 = [40, 0, 0, 0, 0, 0, 0, 0] ∧
    toLeBytes 8 20 = [20, 0, 0, 0, 0, 0, 0, 0] ∧
    (∀ src : List Nat, src.length = 100 * 4 + 32 →
      shardFileBytes src 1 40 32 160
          = toLeBytes 8 1 ++ toLeBytes 8 40 ++ (src.drop 32).take 160 ∧
      shardFileBytes src 2 40 192 160
          = toLeBytes 8 2 ++ toLeBytes 8 40 ++ (src.drop 192).take 160 ∧
      shardFileBytes src 3 20 352 80
          = toLeBytes 8 3 ++ toLeBytes 8 20 ++ (src.drop 352).take 80 ∧
      extractRange src 32 160 ++ extractRange src 192 160 ++ extractRange src 352 80
          = src.drop 32) := by
  refine ⟨by decide, by decide, by decide, by decide, ?_⟩
  intro src hlen
  refine ⟨rfl, rfl, rfl, ?_⟩
  have h192 : src.drop 192 = (src.drop 32).drop 160 := by
    rw [List.drop_drop]
  have h352 : src.drop 352 = ((src.drop 32).drop 160).drop 160 := by
    rw [List.drop_drop, List.drop_drop]
  unfold extractRange
  rw [h192, h352]
  apply cover3
  simp
  omega

theorem shardParams_100_40_witness :
    (List.replicate 432 0).length = 100 * 4 + 32 ∧
    extractRange (List.replicate 432 0) 32 160
        ++ extractRange (List.replicate 432 0) 192 160
        ++ extractRange (List.replicate 432 0) 352 80
      = (List.replicate 432 0).drop 32 :=
  ⟨by norm_num [List.length_replicate],
    (shardParams_100_40.2.2.2.2 (List.replicate 432 0)
      (by norm_num [List.length_replicate])).2.2.2⟩

theorem processChunksLoop_ok (processRes : Nat → Except String Nat) (cnt : Nat → Nat) :
    ∀ (chunks : List Nat) (size : Nat),
      (∀ i ∈ chunks, processRes i = Except.ok (cnt i)) →
      processChunksLoop processRes chunks size
        = (chunks.map (fun i => BuildEvent.processChunk i (cnt i)),
            Except.ok (size + (chunks.map cnt).sum)) := by
  intro chunks
  induction chunks with
  | nil => intro size _; simp [processChunksLoop]
  | cons i rest ih =>
    intro size h
    have hi : processRes i = Except.ok (cnt i) := h i (by simp)
    simp only [processChunksLoop, hi]
    rw [ih (size + cnt i) (fun j hj => h j (List.mem_cons_of_mem _ hj))]
    simp [Nat.add_assoc]

theorem deleteChunksLoop_ok (deleteRes : Nat → Except String Unit) :
    ∀ chunks : List Nat,
      (∀ i ∈ chunks, deleteRes i = Except.ok ()) →
      deleteChunksLoop deleteRes chunks
        = (chunks.map BuildEvent.deleteChunk, Except.ok ()) := by
  intro chunks
  induction chunks with
  | nil => intro _; simp [deleteChunksLoop]
  | cons i rest ih =>
    intro h
    have hi : deleteRes i = Except.ok () := h i (by simp)
    simp only [deleteChunksLoop, hi]
    rw [ih (fun j hj => h j (List.mem_cons_of_mem _ hj))]
    simp

theorem deleteChunksLoop_ok_iff (deleteRes : Nat → Except String Unit) :
    ∀ chunks : List Nat,
      ((deleteChunksLoop deleteRes chunks).2 = Except.ok ()
        ↔ ∀ i ∈ chunks, deleteRes i = Except.ok ()) := by
  intro chunks
  induction chunks with
  | nil => simp [deleteChunksLoop]
  | cons i rest ih =>
    cases hi : deleteRes i with
    | error e =>
      simp only [deleteChunksLoop, hi]
      constructor
      · intro h; exact absurd h (by simp)
      · intro h
        have := h i (by simp)
        rw [hi] at this
        exact absurd this (by simp)
    | ok u =>
      cases u
      simp only [deleteChunksLoop, hi]
      constructor
      · intro h j hj
        rcases List.mem_cons.mp hj with rfl | hj2
        · exact hi
        · exact (ih.mp h) j hj2
      · intro h
        exact ih.mpr (fun j hj => h j (List.mem_cons_of_mem _ hj))

/-- C4: when every chunk processes successfully and every deletion
succeeds, build_k2_db.rs run processes the chunks in order, then writes
the config exactly once, carrying the sum of the per-chunk occupied-cell
counts, after all chunks and before any deletion. -/
theorem build_k2_db_run_config_once (chunks : List Nat)
    (processRes : Nat → Except String Nat) (deleteRes : Nat → Except String Unit)
    (cnt : Nat → Nat)
    (hp : ∀ i ∈ chunks, processRes i = Except.ok (cnt i))
    (hd : ∀ i ∈ chunks, deleteRes i = Except.ok ()) :
    build_k2_db_run chunks processRes deleteRes
      = (chunks.map (fun i => BuildEvent.processChunk i (cnt i))
          ++ BuildEvent.writeConfig ((chunks.map cnt).sum)
            :: chunks.map BuildEvent.deleteChunk,
          Except.ok ()) := by
  unfold build_k2_db_run
  rw [processChunksLoop_ok processRes cnt chunks 0 hp,
    deleteChunksLoop_ok deleteRes chunks hd]
  simp

theorem build_k2_db_run_config_once_witness :
    build_k2_db_run [1, 2] (fun i => Except.ok (10 * i)) (fun _ => Except.ok ())
      = ([BuildEvent.processChunk 1 10, BuildEvent.processChunk 2 20,
          BuildEvent.writeConfig 30, BuildEvent.deleteChunk 1,
          BuildEvent.deleteChunk 2],
          Except.ok ()) := by
  have h := build_k2_db_run_config_once [1, 2] (fun i => Except.ok (10 * i))
    (fun _ => Except.ok ()) (fun i => 10 * i)
    (fun _ _ => rfl) (fun _ _ => rfl)
  simpa using h

/-- C5 counterexample: with one chunk whose deletion fails, run returns
the deletion error instead of a successful result. -/
theorem build_k2_db_run_delete_fatal_cex :
    (build_k2_db_run [1] (fun _ => Except.ok 5)
        (fun _ => Except.error "delete failed")).2
      = Except.error "delete failed" := rfl

/-- C5 amended: a failure to delete a spent chunk file makes run return
that error (the `?` operator propagates it; it is not logged-and-ignored);
the deletion is only attempted after the config, carrying the correct
summed size, has already been written, so the failure happens after the
build result is persisted. -/
theorem build_k2_db_run_delete_failure (chunks : List Nat)
    (processRes : Nat → Except String Nat) (deleteRes : Nat → Except String Unit)
    (cnt : Nat → Nat)
    (hp : ∀ i ∈ chunks, processRes i = Except.ok (cnt i)) :
    (∃ tail, (build_k2_db_run chunks processRes deleteRes).1
        = chunks.map (fun i => BuildEvent.processChunk i (cnt i))
            ++ BuildEvent.writeConfig ((chunks.map cnt).sum) :: tail) ∧
    ((build_k2_db_run chunks processRes deleteRes).2 = Except.ok ()
        ↔ ∀ i ∈ chunks, deleteRes i = Except.ok ()) := by
  unfold build_k2_db_run
  rw [processChunksLoop_ok processRes cnt chunks 0 hp]
  constructor
  · exact ⟨(deleteChunksLoop deleteRes chunks).1, by simp⟩
  · simpa using deleteChunksLoop_ok_iff deleteRes chunks

theorem build_k2_db_run_delete_failure_witness :
    (∃ tail, (build_k2_db_run [1] (fun _ => Except.ok 5)
          (fun _ => Except.error "boom")).1
        = [1].map (fun i => BuildEvent.processChunk i 5)
            ++ BuildEvent.writeConfig (([1].map (fun _ => 5)).sum) :: tail) ∧
    ((build_k2_db_run [1] (fun _ => Except.ok 5)
          (fun _ => Except.error "boom")).2 = Except.ok ()
        ↔ ∀ i ∈ [1], (fun _ => (Except.error "boom" : Except String Unit)) i
            = Except.ok ()) :=
  build_k2_db_run_delete_failure [1] (fun _ => Except.ok 5)
    (fun _ => Except.error "boom") (fun _ => 5) (fun _ _ => rfl)

theorem toLeBytes_length (k : Nat) : ∀ n, (toLeBytes k n).length = k := by
  induction k with
  | zero => intro n; rfl
  | succ k ih => intro n; simp [toLeBytes, ih]

theorem leNat_cons (b : Nat) (l : List Nat) : leNat (b :: l) = b + 256 * leNat l := rfl

theorem leNat_toLeBytes (k : Nat) : ∀ n, n < 256 ^ k → leNat (toLeBytes k n) = n := by
  induction k with
  | zero =>
    intro n h
    have hn : n = 0 := by simpa using h
    simp [hn, toLeBytes, leNat]
  | succ k ih =>
    intro n h
    have hq : n / 256 < 256 ^ k := by
      have h2 : (256 : Nat) ^ (k + 1) = 256 ^ k * 256 := by ring
      omega
    rw [show toLeBytes (k + 1) n = n % 256 :: toLeBytes k (n / 256) from rfl,
      leNat_cons, ih _ hq]
    omega

theorem encodeRow_length (r : Row) : (encodeRow r).length = 12 := by
  simp [encodeRow, toLeBytes_length]

theorem take4_append (a l : List Nat) (h : a.length = 4) : (a ++ l).take 4 = a := by
  rw [← h, List.take_left]

theorem drop4_append (a l : List Nat) (h : a.length = 4) : (a ++ l).drop 4 = l := by
  rw [← h, List.drop_left]

theorem decodeRow_encodeRow (r : Row) (h1 : r.value < 2 ^ 32)
    (h2 : r.seq_id < 2 ^ 32) (h3 : r.kmer_id < 2 ^ 32) :
    decodeRow (encodeRow r) = r := by
  obtain ⟨v, s, kd⟩ := r
  simp only at h1 h2 h3
  have hpow : (256 : Nat) ^ 4 = 2 ^ 32 := by norm_num
  have hab : (toLeBytes 4 v ++ toLeBytes 4 s).length = 8 := by
    simp [toLeBytes_length]
  unfold encodeRow decodeRow
  congr 1
  · rw [List.append_assoc, take4_append _ _ (toLeBytes_length 4 v)]
    exact leNat_toLeBytes 4 v (by omega)
  · rw [List.append_assoc, drop4_append _ _ (toLeBytes_length 4 v),
      take4_append _ _ (toLeBytes_length 4 s)]
    exact leNat_toLeBytes 4 s (by omega)
  · rw [show (8 : Nat) = (toLeBytes 4 v ++ toLeBytes 4 s).length from hab.symm,
      List.drop_left, List.take_of_length_le (by simp [toLeBytes_length])]
    exact leNat_toLeBytes 4 kd (by omega)

theorem readRowsLoop_encode :
    ∀ (rows : List Row) (tl : List Nat),
      (∀ r ∈ rows, r.value < 2 ^ 32 ∧ r.seq_id < 2 ^ 32 ∧ r.kmer_id < 2 ^ 32) →
      tl.length < 12 →
      readRowsLoop (encodeRows rows ++ tl) = rows := by
  intro rows
  induction rows with
  | nil =>
    intro tl _ ht
    unfold readRowsLoop
    rw [dif_neg (by simp [encodeRows]; omega)]
  | cons r rs ih =>
    intro tl hb ht
    have hr := hb r (by simp)
    have hlen : (encodeRow r).length = 12 := encodeRow_length r
    have hconc : encodeRows (r :: rs) ++ tl = encodeRow r ++ (encodeRows rs ++ tl) := by
      simp [encodeRows, List.append_assoc]
    rw [hconc]
    unfold readRowsLoop
    rw [dif_pos (by simp [hlen])]
    congr 1
    · rw [show (12 : Nat) = (encodeRow r).length from hlen.symm, List.take_left]
      exact decodeRow_encodeRow r hr.1 hr.2.1 hr.2.2
    · rw [show (12 : Nat) = (encodeRow r).length from hlen.symm, List.drop_left]
      exact ih tl (fun x hx => hb x (by simp [hx])) ht

/-- C6: the hit-record stream reader consumes fixed 12-byte records and
treats an incomplete trailing record as end of stream: for every stream
made of complete records followed by a short tail, it returns Ok with
exactly the complete records grouped by sequence id — never an error. -/
theorem read_rows_from_file_short_tail (rows : List Row) (tl : List Nat)
    (hb : ∀ r ∈ rows, r.value < 2 ^ 32 ∧ r.seq_id < 2 ^ 32 ∧ r.kmer_id < 2 ^ 32)
    (ht : tl.length < 12) :
    read_rows_from_file (encodeRows rows ++ tl) = Except.ok (groupRows rows) := by
  unfold read_rows_from_file
  rw [readRowsLoop_encode rows tl hb ht]

theorem read_rows_from_file_short_tail_witness :
    read_rows_from_file (encodeRows [⟨1, 2, 3⟩, ⟨4, 2, 5⟩] ++ [7, 7, 7])
      = Except.ok (groupRows [⟨1, 2, 3⟩, ⟨4, 2, 5⟩]) :=
  read_rows_from_file_short_tail [⟨1, 2, 3⟩, ⟨4, 2, 5⟩] [7, 7, 7]
    (by decide) (by decide)

/-- C7: when the destination config file already exists the shard
splitter aborts with the panic message before writing any shard file or
the config; when it does not exist, the run succeeds and writes the
config followed by the shard files. -/
theorem hashshard_run_refuses_overwrite (capacity hash_capacity : Nat) :
    hashshard_run capacity hash_capacity true
        = ([], Except.error "hash config is exists!!!") ∧
    (hashshard_run capacity hash_capacity false).2 = Except.ok () ∧
    (hashshard_run capacity hash_capacity false).1
        = ShardEvent.writeConfig
            :: (shardParams capacity hash_capacity).map
                (fun p => ShardEvent.writeShard p.1 p.2.1 p.2.2.1 p.2.2.2) :=
  ⟨rfl, rfl, rfl⟩

theorem btUpsert_keys_mem {B : Type} (init : String → B) (push : B → String → B)
    (k : Nat) (v : String) :
    ∀ (m : List (Nat × B)) (x : Nat),
      (x ∈ (btUpsert init push k v m).map Prod.fst ↔ x = k ∨ x ∈ m.map Prod.fst) := by
  intro m
  induction m with
  | nil => intro x; simp [btUpsert]
  | cons e rest ih =>
    intro x
    obtain ⟨a, b⟩ := e
    by_cases h1 : k < a
    · simp [btUpsert, h1]
    · by_cases h2 : k = a
      · subst h2
        simp [btUpsert, h1]
      · simp [btUpsert, h1, h2, ih]
        tauto

theorem btUpsert_keys_sorted {B : Type} (init : String → B) (push : B → String → B)
    (k : Nat) (v : String) :
    ∀ m : List (Nat × B), List.Sorted (· < ·) (m.map Prod.fst) →
      List.Sorted (· < ·) ((btUpsert init push k v m).map Prod.fst) := by
  intro m
  induction m with
  | nil => intro _; simp [btUpsert]
  | cons e rest ih =>
    intro hs
    obtain ⟨a, b⟩ := e
    rw [List.map_cons, List.sorted_cons] at hs
    obtain ⟨ha, hrest⟩ := hs
    by_cases h1 : k < a
    · simp only [btUpsert, if_pos h1, List.map_cons, List.sorted_cons]
      refine ⟨?_, ha, hrest⟩
      intro x hx
      rcases List.mem_cons.mp hx with rfl | hx2
      · exact h1
      · exact lt_trans h1 (ha x hx2)
    · by_cases h2 : k = a
      · subst h2
        have hbt : btUpsert init push k v ((k, b) :: rest) = (k, push b v) :: rest := by
          rw [show btUpsert init push k v ((k, b) :: rest)
              = if k < k then (k, init v) :: (k, b) :: rest
                else if k = k then (k, push b v) :: rest
                else (k, b) :: btUpsert init push k v rest from rfl,
            if_neg (lt_irrefl k), if_pos rfl]
        rw [hbt, List.map_cons, List.sorted_cons]
        exact ⟨ha, hrest⟩
      · have h3 : a < k := by omega
        simp only [btUpsert, if_neg h1, if_neg h2, List.map_cons, List.sorted_cons]
        refine ⟨?_, ih hrest⟩
        intro x hx
        rcases (btUpsert_keys_mem init push k v rest x).mp hx with rfl | hx2
        · exact h3
        · exact ha x hx2

theorem foldl_btUpsert_sorted {B : Type} (init : String → B) (push : B → String → B) :
    ∀ (l : List (Nat × String)) (m : List (Nat × B)),
      List.Sorted (· < ·) (m.map Prod.fst) →
      List.Sorted (· < ·)
        ((l.foldl (fun acc e => btUpsert init push e.1 e.2 acc) m).map Prod.fst) := by
  intro l
  induction l with
  | nil => intro m hm; simpa
  | cons e rest ih =>
    intro m hm
    simp only [List.foldl_cons]
    exact ih _ (btUpsert_keys_sorted init push e.1 e.2 m hm)

theorem foldl_btUpsert_mem {B : Type} (init : String → B) (push : B → String → B) :
    ∀ (l : List (Nat × String)) (m : List (Nat × B)) (x : Nat),
      (x ∈ (l.foldl (fun acc e => btUpsert init push e.1 e.2 acc) m).map Prod.fst
        ↔ x ∈ m.map Prod.fst ∨ x ∈ l.map Prod.fst) := by
  intro l
  induction l with
  | nil => intro m x; simp
  | cons e rest ih =>
    intro m x
    simp only [List.foldl_cons]
    rw [ih, btUpsert_keys_mem]
    simp [List.mem_cons]
    tauto

theorem checkKeysFrom_iff :
    ∀ (keys : List Nat) (i : Nat),
      (checkKeysFrom i keys = true ↔ keys = List.range' (i + 1) keys.length) := by
  intro keys
  induction keys with
  | nil => intro i; simp [checkKeysFrom]
  | cons k rest ih =>
    intro i
    simp only [checkKeysFrom, Bool.and_eq_true, beq_iff_eq, List.length_cons]
    rw [ih (i + 1)]
    have hr : List.range' (i + 1) (rest.length + 1)
        = (i + 1) :: List.range' (i + 2) rest.length := rfl
    rw [hr]
    constructor
    · rintro ⟨hk, hrest⟩
      rw [hk, ← hrest]
    · intro h
      injection h with hk hrest
      exact ⟨hk.symm, hrest⟩

theorem insertionSort_sorted_id (keys : List Nat) (h : List.Sorted (· < ·) keys) :
    List.insertionSort (· ≤ ·) keys = keys :=
  List.eq_of_perm_of_sorted (List.perm_insertionSort _ _)
    (List.sorted_insertionSort _ _) (h.imp le_of_lt)

theorem sorted_mem_eq_range' (keys : List Nat) (hs : List.Sorted (· < ·) keys)
    (n : Nat) (hmem : ∀ x, x ∈ keys ↔ 1 ≤ x ∧ x ≤ n) :
    keys = List.range' 1 n := by
  have hnd : keys.Nodup := hs.nodup
  have hnd2 : (List.range' 1 n).Nodup :=
    (List.pairwise_lt_range' 1 n).imp (fun h => ne_of_lt h)
  have hperm : keys.Perm (List.range' 1 n) := by
    rw [List.perm_ext_iff_of_nodup hnd hnd2]
    intro a
    rw [hmem a, List.mem_range'_1]
    omega
  exact List.eq_of_perm_of_sorted hperm hs (List.pairwise_lt_range' 1 n)

theorem checkContig_iff_of_sorted (keys : List Nat)
    (hs : List.Sorted (· < ·) keys) :
    (checkContig keys = true ↔ ∃ n, ∀ x, x ∈ keys ↔ 1 ≤ x ∧ x ≤ n) := by
  unfold checkContig
  rw [insertionSort_sorted_id keys hs, checkKeysFrom_iff keys 0]
  constructor
  · intro h
    refine ⟨keys.length, ?_⟩
    intro x
    constructor
    · intro hx
      rw [h] at hx
      rw [List.mem_range'_1] at hx
      omega
    · intro hx
      rw [h, List.mem_range'_1]
      omega
  · rintro ⟨n, hn⟩
    have h2 := sorted_mem_eq_range' keys hs n hn
    rw [h2, List.length_range']

/-- C8: with check = true, find_and_trans_files and
find_and_trans_bin_files return an error exactly when the set of numeric
indices extracted from the matching file names is not the contiguous
range 1..n for some n; when it is contiguous they return the collected
map, keyed and ordered by index. -/
theorem find_and_trans_files_contig_iff (extracted : List (Nat × String)) :
    ((∃ m, find_and_trans_files extracted true = Except.ok m)
        ↔ ∃ n, ∀ x, x ∈ extracted.map Prod.fst ↔ 1 ≤ x ∧ x ≤ n) ∧
    ((∃ m, find_and_trans_bin_files extracted true = Except.ok m)
        ↔ ∃ n, ∀ x, x ∈ extracted.map Prod.fst ↔ 1 ≤ x ∧ x ≤ n) ∧
    (∀ m, find_and_trans_files extracted true = Except.ok m
        → m = buildTransMap extracted) ∧
    (∀ m, find_and_trans_bin_files extracted true = Except.ok m
        → m = buildBinMap extracted) := by
  have hsort1 : List.Sorted (· < ·) ((buildTransMap extracted).map Prod.fst) :=
    foldl_btUpsert_sorted _ _ extracted [] (by simp)
  have hsort2 : List.Sorted (· < ·) ((buildBinMap extracted).map Prod.fst) :=
    foldl_btUpsert_sorted _ _ extracted [] (by simp)
  have hmem1 : ∀ x, x ∈ (buildTransMap extracted).map Prod.fst
      ↔ x ∈ extracted.map Prod.fst := by
    intro x
    have h := foldl_btUpsert_mem (fun v => v) (fun _ v => v) extracted [] x
    simpa [buildTransMap] using h
  have hmem2 : ∀ x, x ∈ (buildBinMap extracted).map Prod.fst
      ↔ x ∈ extracted.map Prod.fst := by
    intro x
    have h := foldl_btUpsert_mem (fun v => [v]) (fun l v => l ++ [v]) extracted [] x
    simpa [buildBinMap] using h
  have hiff1 : checkContig ((buildTransMap extracted).map Prod.fst) = true
      ↔ ∃ n, ∀ x, x ∈ extracted.map Prod.fst ↔ 1 ≤ x ∧ x ≤ n := by
    rw [checkContig_iff_of_sorted _ hsort1]
    exact exists_congr fun n => forall_congr' fun x => by rw [hmem1 x]
  have hiff2 : checkContig ((buildBinMap extracted).map Prod.fst) = true
      ↔ ∃ n, ∀ x, x ∈ extracted.map Prod.fst ↔ 1 ≤ x ∧ x ≤ n := by
    rw [checkContig_iff_of_sorted _ hsort2]
    exact exists_congr fun n => forall_congr' fun x => by rw [hmem2 x]
  refine ⟨?_, ?_, ?_, ?_⟩
  · rw [← hiff1]
    unfold find_and_trans_files
    by_cases hc : checkContig ((buildTransMap extracted).map Prod.fst) = true
    · simp [hc]
    · simp [hc]
  · rw [← hiff2]
    unfold find_and_trans_bin_files
    by_cases hc : checkContig ((buildBinMap extracted).map Prod.fst) = true
    · simp [hc]
    · simp [hc]
  · intro m hm
    unfold find_and_trans_files at hm
    by_cases hc : checkContig ((buildTransMap extracted).map Prod.fst) = true
    · simp [hc] at hm
      exact hm.symm
    · simp [hc] at hm
  · intro m hm
    unfold find_and_trans_bin_files at hm
    by_cases hc : checkContig ((buildBinMap extracted).map Prod.fst) = true
    · simp [hc] at hm
      exact hm.symm
    · simp [hc] at hm

theorem find_and_trans_files_contig_iff_witness :
    (∃ n, ∀ x,
        x ∈ ([(2, "b"), (1, "a")] : List (Nat × String)).map Prod.fst
          ↔ 1 ≤ x ∧ x ≤ n) ∧
    ([(1, "a"), (2, "b")] : List (Nat × String)) = buildTransMap [(2, "b"), (1, "a")] :=
  ⟨(find_and_trans_files_contig_iff [(2, "b"), (1, "a")]).1.mp ⟨_, rfl⟩,
    (find_and_trans_files_contig_iff [(2, "b"), (1, "a")]).2.2.1
      [(1, "a"), (2, "b")] rfl⟩

/-- C9: during batch resolution a hit-record group whose sequence id is
missing from the id map contributes no output line, no counter delta and
no classified increment — only a log message — while every other group
is processed exactly as if the missing groups were absent; the batch
never aborts. -/
theorem processBatch_skips_missing (hitFn : List Row → SeqItem → HitData)
    (trimFn : String → String) (idMap : Nat → Option SeqItem)
    (groups : List (Nat × List Row)) :
    (processBatch hitFn trimFn idMap groups).outs
        = (processBatch hitFn trimFn idMap
            (groups.filter (fun g => (idMap g.1).isSome))).outs ∧
    (processBatch hitFn trimFn idMap groups).counts
        = (processBatch hitFn trimFn idMap
            (groups.filter (fun g => (idMap g.1).isSome))).counts ∧
    (processBatch hitFn trimFn idMap groups).classified
        = (processBatch hitFn trimFn idMap
            (groups.filter (fun g => (idMap g.1).isSome))).classified ∧
    (processBatch hitFn trimFn idMap groups).logs
        = (groups.filter (fun g => (idMap g.1).isNone)).map (fun g => logMsg g.1) := by
  induction groups with
  | nil => exact ⟨rfl, rfl, rfl, rfl⟩
  | cons g rest ih =>
    obtain ⟨k, rows⟩ := g
    obtain ⟨ih1, ih2, ih3, ih4⟩ := ih
    cases hk : idMap k with
    | some item =>
      simp only [processBatch, hk, List.filter_cons, Option.isSome_some,
        Option.isNone_some, if_pos, Bool.false_eq_true, if_false]
      exact ⟨by rw [ih1], by rw [ih2], by rw [ih3], ih4⟩
    | none =>
      simp only [processBatch, hk, List.filter_cons, Option.isSome_none,
        Option.isNone_none, Bool.false_eq_true, if_false, if_pos]
      exact ⟨ih1, ih2, ih3, by rw [ih4, List.map_cons]⟩

set_option maxRecDepth 10000 in
theorem expand_spaced_seed_mask_spec_witness :
    expand_spaced_seed_mask 10 2 = expandSpec 10 2 (64 / 2) ∧
      expand_spaced_seed_mask 10 2 = 204 ∧
      expand_spaced_seed_mask 5 1 = 5 ∧
      expand_spaced_seed_mask 10 0 = 10 ∧ expand_spaced_seed_mask 10 65 = 10 :=
  ⟨expand_spaced_seed_mask_spec.2 10 2 (by norm_num) (by norm_num), by decide,
    by decide, expand_spaced_seed_mask_spec.1 10 0 (Or.inl rfl),
    expand_spaced_seed_mask_spec.1 10 65 (Or.inr (by norm_num))⟩

end Kr2r
